import Mathlib

/-!
Verification of the SCEL-to-RIME converter (src/scel2rime.py).

Bytes are modelled as natural numbers; Python strings are modelled as lists
of code points (Python `chr` accepts every value up to 0xFFFF, including
surrogates, so a list of naturals is the faithful model).  Python slicing
`data[i:j]` never faults and truncates at the end of the buffer, which is
modelled by `List.drop`/`List.take`.  `struct.unpack('<H', s)` succeeds
exactly when `s` has two bytes, modelled by `readU16` returning `Option`.
The two decoder loops advance a cursor and are modelled by well-founded
recursion on the remaining length, mirroring the `while pos < length`
loops with their `try/except` single-byte resynchronisation.
-/

namespace Scel

/-- One Python string: a list of 16-bit code points (surrogates allowed). -/
abbrev PyStr := List Nat

/-- `struct.unpack('<H', data[pos:pos+2])`: succeeds exactly when at least
two bytes remain at `pos`, returning the little-endian 16-bit value. -/
def readU16 (data : List Nat) (pos : Nat) : Option Nat :=
  match data.drop pos with
  | b0 :: b1 :: _ => some (b0 + 256 * b1)
  | _ => none

/-- `byte2str` (src lines 15-28): the while loop reads two bytes at a time;
a lone trailing byte makes `struct.unpack` raise, the handler advances past
it, and the loop ends, so it contributes no character. -/
def byte2str : List Nat → PyStr
  | b0 :: b1 :: rest => (b0 + 256 * b1) :: byte2str rest
  | _ => []

/-- The fixed 12-byte magic signature checked at src line 38. -/
def MAGIC : List Nat := [0x40, 0x15, 0x00, 0x00, 0x44, 0x43, 0x53, 0x01, 0x01, 0x00, 0x00, 0x00]

/-- The pinyin mapping `py_table`: a Python dict from index to string,
modelled as an association list with distinct keys in insertion order. -/
abbrev PyTable := List (Nat × PyStr)

/-- `py_table[index] = value`: overwrite in place if the key exists
(Python dicts keep the original position), else append. -/
def tableInsert (t : PyTable) (k : Nat) (v : PyStr) : PyTable :=
  match t with
  | [] => [(k, v)]
  | (k1, v1) :: rest => if k1 = k then (k, v) :: rest else (k1, v1) :: tableInsert rest k v

/-- `index in py_table` / `py_table[index]` as one lookup. -/
def tableLookup (t : PyTable) (k : Nat) : Option PyStr :=
  match t with
  | [] => none
  | (k1, v1) :: rest => if k1 = k then some v1 else tableLookup rest k

/-- The pinyin-table loop (src lines 57-77).  At each position: read the
index (u16) and the length (u16) — a short read raises and the handler
advances the cursor by one byte from where it stood — then slice `py_len`
bytes of text (slicing never raises, it truncates), record
`py_table[index] = byte2str(...)`, bump `py_count`, and move past the
record.  Returns the final `(py_table, py_count)`. -/
def pyParse (data : List Nat) (pos : Nat) (t : PyTable) (c : Nat) : PyTable × Nat :=
  if h : pos < data.length then
    match readU16 data pos with
    | none => pyParse data (pos + 1) t c
    | some index =>
      match readU16 data (pos + 2) with
      | none => pyParse data (pos + 3) t c
      | some py_len =>
        pyParse data (pos + 4 + py_len)
          (tableInsert t index (byte2str ((data.drop (pos + 4)).take py_len))) (c + 1)
  else (t, c)
termination_by data.length - pos
decreasing_by all_goals omega

/-- One element of `entries` (src line 141): the tuple `(word, pinyin, freq)`. -/
structure DecodedEntry where
  word : PyStr
  pinyin : PyStr
  freq : Nat
deriving DecidableEq, Repr

/-- The `pinyin_parts` list (src lines 110-113): resolve each index against
`py_table`, silently dropping indices with no match, in index order. -/
def resolveParts (t : PyTable) : List Nat → List PyStr
  | [] => []
  | i :: rest =>
    match tableLookup t i with
    | some s => s :: resolveParts t rest
    | none => resolveParts t rest

/-- Python `' '.join(parts)`: intersperse a single space (code point 32). -/
def joinSpace : List PyStr → PyStr
  | [] => []
  | [p] => p
  | p :: ps => p ++ 32 :: joinSpace ps

/-- The index-table loop (src lines 103-107): read `py_table_len / 2`
u16 indices.  Returns the indices and the number of bytes consumed, or,
when a read underflows, `Except.error` carrying the bytes consumed before
the faulting read (the cursor stands there when the exception escapes). -/
def readIndices (data : List Nat) (pos : Nat) : Nat → Except Nat (List Nat × Nat)
  | 0 => .ok ([], 0)
  | n + 1 =>
    match readU16 data pos with
    | none => .error 0
    | some v =>
      match readIndices data (pos + 2) n with
      | .error c => .error (2 + c)
      | .ok (idxs, c) => .ok (v :: idxs, 2 + c)

/-- Add `k` bytes already consumed to the consumed count carried by a
homophone-word loop outcome, keeping its entries and entry count. -/
def addConsumed (k : Nat) :
    Except (Nat × List DecodedEntry × Nat) (Nat × List DecodedEntry × Nat) →
    Except (Nat × List DecodedEntry × Nat) (Nat × List DecodedEntry × Nat)
  | .error (c, es, ec) => .error (k + c, es, ec)
  | .ok (c, es, ec) => .ok (k + c, es, ec)

/-- The homophone-word loop (src lines 122-142), for `same_count`
iterations starting at `pos`.  Each iteration reads `word_len` (u16),
slices and decodes the word, reads `ext_len` (u16), reads `freq` as the
u16 at the start of the extension block, then advances by `ext_len`; a
word of length 1 to 8 is appended to `entries` and counted.  The result
carries `(bytes consumed, entries, entry_count)`; on a faulting u16 read
it is `Except.error` with the bytes consumed before the fault and the
entries appended so far (list mutation survives the exception). -/
def parseWords (data : List Nat) (py : PyStr) :
    Nat → Nat → List DecodedEntry → Nat →
    Except (Nat × List DecodedEntry × Nat) (Nat × List DecodedEntry × Nat)
  | 0, _, es, ec => .ok (0, es, ec)
  | n + 1, pos, es, ec =>
    match readU16 data pos with
    | none => .error (0, es, ec)
    | some word_len =>
      let word := byte2str ((data.drop (pos + 2)).take word_len)
      match readU16 data (pos + 2 + word_len) with
      | none => .error (2 + word_len, es, ec)
      | some ext_len =>
        match readU16 data (pos + 2 + word_len + 2) with
        | none => .error (2 + word_len + 2, es, ec)
        | some freq =>
          let es2 := if 1 ≤ word.length ∧ word.length ≤ 8
            then es ++ [⟨word, py, freq⟩] else es
          let ec2 := if 1 ≤ word.length ∧ word.length ≤ 8 then ec + 1 else ec
          addConsumed (2 + word_len + 2 + ext_len)
            (parseWords data py n (pos + 2 + word_len + 2 + ext_len) es2 ec2)

/-- The word-table loop (src lines 92-148).  Per group: read `same_count`
(u16) and `py_table_len` (u16), read the index table, resolve the indices;
if no index resolved, skip `same_count * 14` bytes and continue, else join
the parts with spaces and run the homophone-word loop.  Any u16 underflow
raises; the handler bumps `error_count` and advances the cursor one byte
past where it stood at the fault.  Returns `(entries, entry_count,
error_count)`. -/
def wordLoop (data : List Nat) (t : PyTable) (pos : Nat)
    (es : List DecodedEntry) (ec fc : Nat) : List DecodedEntry × Nat × Nat :=
  if h : pos < data.length then
    match readU16 data pos with
    | none => wordLoop data t (pos + 1) es ec (fc + 1)
    | some same_count =>
      match readU16 data (pos + 2) with
      | none => wordLoop data t (pos + 3) es ec (fc + 1)
      | some py_table_len =>
        match readIndices data (pos + 4) (py_table_len / 2) with
        | .error ci => wordLoop data t (pos + 4 + ci + 1) es ec (fc + 1)
        | .ok (idxs, ci) =>
          match resolveParts t idxs with
          | [] => wordLoop data t (pos + 4 + ci + same_count * 14) es ec fc
          | p :: ps =>
            match parseWords data (joinSpace (p :: ps)) same_count (pos + 4 + ci) es ec with
            | .error (cw, es2, ec2) => wordLoop data t (pos + 4 + ci + cw + 1) es2 ec2 (fc + 1)
            | .ok (cw, es2, ec2) => wordLoop data t (pos + 4 + ci + cw) es2 ec2 fc
  else (es, ec, fc)
termination_by data.length - pos
decreasing_by all_goals omega

/-- `parse_scel` (src lines 30-155): check the 12-byte magic (Python
`data[:12]` truncates, so a short buffer compares unequal and is
rejected), then decode the pinyin table from offset 0x1540 and the word
table from offset 0x2628, returning the entry list; `None` on a bad
header, with no table parsing. -/
def parse_scel (data : List Nat) : Option (List DecodedEntry) :=
  if data.take 12 = MAGIC then
    some (wordLoop (data.drop 0x2628) (pyParse (data.drop 0x1540) 0 [] 0).1 0 [] 0 0).1
  else none

/-- The filter of `generate_rime_yaml` (src lines 160-165): keep entries
with `freq >= min_freq` and `min_length <= len(word) <= max_length`.  The
thresholds are Python ints from the command line, so they are modelled as
integers. -/
def filterEntries (es : List DecodedEntry) (min_freq min_length max_length : Int) :
    List DecodedEntry :=
  es.filter fun e => decide (min_freq ≤ (e.freq : Int) ∧
    min_length ≤ (e.word.length : Int) ∧ (e.word.length : Int) ≤ max_length)

/-- Stable insertion into a frequency-descending list: the new element
goes before every element of frequency less than or equal to its own,
matching the placement a stable descending sort gives an element that
precedes the list's elements in the input. -/
def insertByFreq (e : DecodedEntry) : List DecodedEntry → List DecodedEntry
  | [] => [e]
  | y :: ys => if y.freq ≤ e.freq then e :: y :: ys else y :: insertByFreq e ys

/-- `filtered_entries.sort(key=lambda x: x[2], reverse=True)` (src line
168): Python guarantees a stable sort, also with `reverse=True`; a stable
descending sort by one key is extensionally unique, and stable insertion
sort realises it. -/
def sortByFreqDesc : List DecodedEntry → List DecodedEntry
  | [] => []
  | x :: xs => insertByFreq x (sortByFreqDesc xs)

/-- The filter-and-sort portion of `generate_rime_yaml` (src lines
157-168); the subsequent serialisation to the output file does not touch
the entry sequence. -/
def generate_rime_yaml (es : List DecodedEntry) (min_freq min_length max_length : Int) :
    List DecodedEntry :=
  sortByFreqDesc (filterEntries es min_freq min_length max_length)

end Scel

namespace Scel

/-! ### Generic stepping lemmas for the two decoder loops -/

theorem pyParse_end (data : List Nat) (pos : Nat) (t : PyTable) (c : Nat)
    (h : data.length ≤ pos) : pyParse data pos t c = (t, c) := by
  rw [pyParse]
  simp [Nat.not_lt.mpr h]

theorem pyParse_fault_head (data : List Nat) (pos : Nat) (t : PyTable) (c : Nat)
    (h : pos < data.length) (hr : readU16 data pos = none) :
    pyParse data pos t c = pyParse data (pos + 1) t c := by
  rw [pyParse]
  simp [h, hr]

theorem pyParse_fault_len (data : List Nat) (pos : Nat) (t : PyTable) (c : Nat)
    (index : Nat) (h : pos < data.length) (hr1 : readU16 data pos = some index)
    (hr2 : readU16 data (pos + 2) = none) :
    pyParse data pos t c = pyParse data (pos + 3) t c := by
  rw [pyParse]
  simp [h, hr1, hr2]

theorem pyParse_step_ok (data : List Nat) (pos : Nat) (t : PyTable) (c : Nat)
    (index py_len : Nat) (h : pos < data.length) (hr1 : readU16 data pos = some index)
    (hr2 : readU16 data (pos + 2) = some py_len) :
    pyParse data pos t c =
      pyParse data (pos + 4 + py_len)
        (tableInsert t index (byte2str ((data.drop (pos + 4)).take py_len))) (c + 1) := by
  rw [pyParse]
  simp [h, hr1, hr2]

theorem wordLoop_end (data : List Nat) (t : PyTable) (pos : Nat)
    (es : List DecodedEntry) (ec fc : Nat) (h : data.length ≤ pos) :
    wordLoop data t pos es ec fc = (es, ec, fc) := by
  rw [wordLoop]
  simp [Nat.not_lt.mpr h]

theorem drop_header_append (a b c d : Nat) (t r : List Nat) :
    (a :: b :: c :: d :: (t ++ r)).drop (4 + t.length) = r := by
  rw [show 4 + t.length = t.length + 1 + 1 + 1 + 1 from by omega]
  simp

theorem drop_add_two (data : List Nat) (p x y : Nat) (w : List Nat)
    (h : data.drop p = x :: y :: w) : data.drop (p + 2) = w := by
  rw [← List.drop_drop, h]
  rfl

/-- Stepping over one well-formed pinyin record: when the bytes at the
cursor are a four-byte header followed by exactly its announced text, the
loop records the entry and lands right after the record. -/
theorem pyParse_record (data : List Nat) (pos : Nat) (t : PyTable) (c : Nat)
    (ilo ihi llo lhi : Nat) (txt rest : List Nat)
    (hdrop : data.drop pos = ilo :: ihi :: llo :: lhi :: (txt ++ rest))
    (hlen : txt.length = llo + 256 * lhi) :
    pyParse data pos t c =
      pyParse data (pos + 4 + txt.length)
        (tableInsert t (ilo + 256 * ihi) (byte2str txt)) (c + 1) := by
  have hlendrop := congrArg List.length hdrop
  simp [List.length_drop] at hlendrop
  have hpos : pos < data.length := by omega
  have hr1 : readU16 data pos = some (ilo + 256 * ihi) := by
    simp [readU16, hdrop]
  have hd2 : data.drop (pos + 2) = llo :: lhi :: (txt ++ rest) :=
    drop_add_two data pos ilo ihi _ hdrop
  have hr2 : readU16 data (pos + 2) = some (llo + 256 * lhi) := by
    simp [readU16, hd2]
  have hd4 : data.drop (pos + 4) = txt ++ rest := by
    have := drop_add_two data (pos + 2) llo lhi _ hd2
    rw [show pos + 2 + 2 = pos + 4 from by omega] at this
    exact this
  have hslice : (data.drop (pos + 4)).take (llo + 256 * lhi) = txt := by
    rw [hd4, ← hlen]
    simp
  rw [pyParse_step_ok data pos t c _ _ hpos hr1 hr2, hslice, ← hlen]

end Scel

namespace Scel

/-! ### Claims about the Code-Unit Decoder and the Header Validator -/

/-- C9: for every byte sequence, `byte2str` returns exactly `n / 2`
characters — each complete 2-byte unit yields one character (also for
lone surrogate code units, which Python `chr` accepts) and an odd
trailing byte yields none. -/
theorem claim_C9 (data : List Nat) : (byte2str data).length = data.length / 2 := by
  induction data using byte2str.induct with
  | case1 b0 b1 rest ih =>
    simp [byte2str, ih]
    omega
  | case2 x hx =>
    cases x with
    | nil => simp [byte2str]
    | cons a l =>
      cases l with
      | nil => simp [byte2str]
      | cons b m => exact absurd rfl (hx a b m)

/-- C7: the Code-Unit Decoder is total and deterministic — it is embedded
as a total Lean function, so it terminates with a string on every input
and raises nothing — and an odd trailing byte produces no character:
appending one byte to an even-length buffer leaves the output unchanged. -/
theorem claim_C7 (data : List Nat) (b : Nat) (h : data.length % 2 = 0) :
    byte2str (data ++ [b]) = byte2str data := by
  induction data using byte2str.induct with
  | case1 b0 b1 rest ih =>
    have h2 : rest.length % 2 = 0 := by
      simp [List.length_cons] at h
      omega
    show byte2str (b0 :: b1 :: (rest ++ [b])) = byte2str (b0 :: b1 :: rest)
    exact congrArg (fun s => (b0 + 256 * b1) :: s) (ih h2)
  | case2 x hx =>
    cases x with
    | nil => simp [byte2str]
    | cons a l =>
      cases l with
      | nil => simp [List.length_cons] at h
      | cons b2 m => exact absurd rfl (hx a b2 m)

theorem claim_C7_witness : byte2str ([97, 0] ++ [5]) = byte2str [97, 0] :=
  claim_C7 [97, 0] 5 rfl

/-- C6: `parse_scel` succeeds exactly when the first 12 bytes equal the
magic signature `MAGIC`; a buffer shorter than 12 bytes is rejected (its
12-byte slice is shorter than the signature), and on rejection the result
is `none` with no table parsing. -/
theorem claim_C6 (data : List Nat) :
    ((parse_scel data).isSome ↔ data.take 12 = MAGIC) ∧
    (data.length < 12 → parse_scel data = none) := by
  constructor
  · by_cases hm : data.take 12 = MAGIC <;> simp [parse_scel, hm]
  · intro hlen
    have hne : data.take 12 ≠ MAGIC := by
      intro he
      have h1 : (data.take 12).length = 12 := by rw [he]; rfl
      simp [List.length_take] at h1
      omega
    simp [parse_scel, hne]

theorem claim_C6_witness : parse_scel [] = none :=
  (claim_C6 []).2 (by decide)

/-! ### Claims about the Pinyin Table Decoder -/

/-- C1 counterexample: in the sub-buffer `[1, 0, 10, 0, 97, 0]` the single
record announces 10 bytes of text but only 2 remain.  The claim says such
a record is not recorded and the cursor advances by one byte; in fact
Python slicing truncates without raising, so the decoder records
`1 ↦ "a"` (one entry, the truncated text) and advances by 14 bytes. -/
theorem claim_C1_counterexample :
    (pyParse [1, 0, 10, 0, 97, 0] 0 [] 0).1 ≠ [] ∧
    pyParse [1, 0, 10, 0, 97, 0] 0 [] 0 = ([(1, [97])], 1) := by
  refine ⟨?_, ?_⟩ <;> simp [pyParse, readU16, byte2str, tableInsert]

/-- C1 amended: the 1-byte-advance recovery applies exactly to the two
u16 header reads — on an underflowing read the decoder records nothing
and advances the cursor by one byte past the position of the faulting
read.  When only the `length`-byte text read underflows, the decoder
instead records the entry with the truncated decoded text and moves the
cursor past the end of the buffer, ending the scan. -/
theorem claim_C1_amended (data : List Nat) (pos : Nat) (t : PyTable) (c : Nat)
    (h : pos < data.length) :
    (readU16 data pos = none → pyParse data pos t c = pyParse data (pos + 1) t c) ∧
    (∀ index, readU16 data pos = some index → readU16 data (pos + 2) = none →
      pyParse data pos t c = pyParse data (pos + 3) t c) ∧
    (∀ index py_len, readU16 data pos = some index →
      readU16 data (pos + 2) = some py_len → data.length < pos + 4 + py_len →
      pyParse data pos t c =
        (tableInsert t index (byte2str ((data.drop (pos + 4)).take py_len)), c + 1)) := by
  refine ⟨fun hr => pyParse_fault_head data pos t c h hr,
    fun index hr1 hr2 => pyParse_fault_len data pos t c index h hr1 hr2,
    fun index py_len hr1 hr2 hover => ?_⟩
  rw [pyParse_step_ok data pos t c index py_len h hr1 hr2,
    pyParse_end _ _ _ _ (Nat.le_of_lt hover)]

theorem claim_C1_witness : pyParse [5] 0 [] 0 = pyParse [5] 1 [] 0 :=
  (claim_C1_amended [5] 0 [] 0 (by decide)).1 rfl

/-- C10: a sub-buffer holding two well-formed records with the same index
decodes to a one-key mapping holding the second record's string (last
write wins), while the success count reports 2 — so the reported count
exceeds the number of keys. -/
theorem claim_C10 (ilo ihi l1lo l1hi l2lo l2hi : Nat) (t1 t2 : List Nat)
    (h1 : t1.length = l1lo + 256 * l1hi) (h2 : t2.length = l2lo + 256 * l2hi) :
    pyParse (ilo :: ihi :: l1lo :: l1hi :: (t1 ++ (ilo :: ihi :: l2lo :: l2hi :: t2))) 0 [] 0
      = ([(ilo + 256 * ihi, byte2str t2)], 2) := by
  have step1 := pyParse_record
    (ilo :: ihi :: l1lo :: l1hi :: (t1 ++ (ilo :: ihi :: l2lo :: l2hi :: t2))) 0 [] 0
    ilo ihi l1lo l1hi t1 (ilo :: ihi :: l2lo :: l2hi :: t2) rfl h1
  have hdropR : (ilo :: ihi :: l1lo :: l1hi ::
      (t1 ++ (ilo :: ihi :: l2lo :: l2hi :: t2))).drop (0 + 4 + t1.length)
      = ilo :: ihi :: l2lo :: l2hi :: (t2 ++ []) := by
    rw [show 0 + 4 + t1.length = 4 + t1.length from by omega, drop_header_append]
    simp
  have step2 := pyParse_record
    (ilo :: ihi :: l1lo :: l1hi :: (t1 ++ (ilo :: ihi :: l2lo :: l2hi :: t2)))
    (0 + 4 + t1.length) (tableInsert [] (ilo + 256 * ihi) (byte2str t1)) 1
    ilo ihi l2lo l2hi t2 [] hdropR h2
  rw [step1, step2, pyParse_end]
  · simp [tableInsert]
  · simp only [List.length_cons, List.length_append]
    omega

theorem claim_C10_witness :
    pyParse [1, 0, 2, 0, 97, 0, 1, 0, 2, 0, 98, 0] 0 [] 0 = ([(1, [98])], 2) :=
  claim_C10 1 0 2 0 2 0 [97, 0] [98, 0] rfl rfl

/-- C8 counterexample: records `(1, "a")` and `(2, "b")` separated by the
garbage bytes `0, 0, 255`.  The claim says the second record is
eventually recovered and the garbage is counted as faults, not entries.
In fact a u16 read can only fault within the last byte of the sub-buffer,
so the decoder never faults at the garbage: it parses a spurious record
there (index 0, announced length 767), records it as a second successful
entry, and jumps past the end — index 2 never enters the mapping. -/
theorem claim_C8_counterexample :
    tableLookup (pyParse [1, 0, 2, 0, 97, 0, 0, 0, 255, 2, 0, 2, 0, 98, 0] 0 [] 0).1 2 = none ∧
    (pyParse [1, 0, 2, 0, 97, 0, 0, 0, 255, 2, 0, 2, 0, 98, 0] 0 [] 0).2 = 2 := by
  refine ⟨?_, ?_⟩ <;> simp [pyParse, readU16, byte2str, tableInsert, tableLookup]

/-- C8 amended: with 3 garbage bytes between two well-formed records, the
decoder decodes the first record, then at the garbage performs a
successful (non-fault) parse step: it records a spurious entry keyed by
the first two garbage bytes, counts it as a success (the pinyin loop has
no fault counter at all), and advances the cursor strictly past the start
of the second record — so the second record is never parsed from its own
start and resynchronisation does not occur there. -/
theorem claim_C8_amended (i1lo i1hi l1lo l1hi g1 g2 g3 i2lo i2hi l2lo l2hi : Nat)
    (t1 t2 : List Nat) (tbl : PyTable) (c : Nat) (data : List Nat)
    (hdata : data = i1lo :: i1hi :: l1lo :: l1hi ::
      (t1 ++ (g1 :: g2 :: g3 :: i2lo :: i2hi :: l2lo :: l2hi :: t2)))
    (h1 : t1.length = l1lo + 256 * l1hi) (_h2 : t2.length = l2lo + 256 * l2hi) :
    pyParse data 0 tbl c =
      pyParse data (4 + t1.length + 4 + (g3 + 256 * i2lo))
        (tableInsert (tableInsert tbl (i1lo + 256 * i1hi) (byte2str t1)) (g1 + 256 * g2)
          (byte2str ((data.drop (4 + t1.length + 4)).take (g3 + 256 * i2lo)))) (c + 2) ∧
    4 + t1.length + 3 < 4 + t1.length + 4 + (g3 + 256 * i2lo) := by
  subst hdata
  constructor
  · have step1 := pyParse_record
      (i1lo :: i1hi :: l1lo :: l1hi ::
        (t1 ++ (g1 :: g2 :: g3 :: i2lo :: i2hi :: l2lo :: l2hi :: t2))) 0 tbl c
      i1lo i1hi l1lo l1hi t1 (g1 :: g2 :: g3 :: i2lo :: i2hi :: l2lo :: l2hi :: t2) rfl h1
    have hdropG : (i1lo :: i1hi :: l1lo :: l1hi ::
        (t1 ++ (g1 :: g2 :: g3 :: i2lo :: i2hi :: l2lo :: l2hi :: t2))).drop (0 + 4 + t1.length)
        = g1 :: g2 :: g3 :: i2lo :: i2hi :: l2lo :: l2hi :: t2 := by
      rw [show 0 + 4 + t1.length = 4 + t1.length from by omega, drop_header_append]
    have hpos : 0 + 4 + t1.length <
        (i1lo :: i1hi :: l1lo :: l1hi ::
          (t1 ++ (g1 :: g2 :: g3 :: i2lo :: i2hi :: l2lo :: l2hi :: t2))).length := by
      simp
      omega
    have hr1 : readU16 (i1lo :: i1hi :: l1lo :: l1hi ::
        (t1 ++ (g1 :: g2 :: g3 :: i2lo :: i2hi :: l2lo :: l2hi :: t2)))
        (0 + 4 + t1.length) = some (g1 + 256 * g2) := by
      simp [readU16, hdropG]
    have hr2 : readU16 (i1lo :: i1hi :: l1lo :: l1hi ::
        (t1 ++ (g1 :: g2 :: g3 :: i2lo :: i2hi :: l2lo :: l2hi :: t2)))
        (0 + 4 + t1.length + 2) = some (g3 + 256 * i2lo) := by
      have := drop_add_two _ _ _ _ _ hdropG
      simp [readU16, this]
    have step2 := pyParse_step_ok
      (i1lo :: i1hi :: l1lo :: l1hi ::
        (t1 ++ (g1 :: g2 :: g3 :: i2lo :: i2hi :: l2lo :: l2hi :: t2)))
      (0 + 4 + t1.length) (tableInsert tbl (i1lo + 256 * i1hi) (byte2str t1)) (c + 1)
      (g1 + 256 * g2) (g3 + 256 * i2lo) hpos hr1 hr2
    rw [step1, step2]
  · omega

theorem claim_C8_witness :
    pyParse [1, 0, 2, 0, 97, 0, 0, 0, 255, 2, 0, 2, 0, 98, 0] 0 [] 0 =
      pyParse [1, 0, 2, 0, 97, 0, 0, 0, 255, 2, 0, 2, 0, 98, 0] 777
        [(1, [97]), (0, [512, 25088])] 2 ∧
    9 < 777 :=
  claim_C8_amended 1 0 2 0 0 0 255 2 0 2 0 [97, 0] [98, 0] [] 0
    [1, 0, 2, 0, 97, 0, 0, 0, 255, 2, 0, 2, 0, 98, 0] rfl rfl rfl

end Scel

namespace Scel

/-! ### Claims about the Word Table Decoder -/

/-- The entries carried by a homophone-word loop outcome, whether it
returned normally or escaped with an exception (the Python list survives
either way). -/
def pwEntries :
    Except (Nat × List DecodedEntry × Nat) (Nat × List DecodedEntry × Nat) →
    List DecodedEntry
  | .ok (_, es, _) => es
  | .error (_, es, _) => es

theorem pwEntries_addConsumed (k : Nat)
    (r : Except (Nat × List DecodedEntry × Nat) (Nat × List DecodedEntry × Nat)) :
    pwEntries (addConsumed k r) = pwEntries r := by
  rcases r with ⟨c, es, ec⟩ | ⟨c, es, ec⟩ <;> rfl

theorem tableLookup_mem (t : PyTable) (k : Nat) (v : PyStr)
    (h : tableLookup t k = some v) : (k, v) ∈ t := by
  induction t with
  | nil => simp [tableLookup] at h
  | cons kv rest ih =>
    rcases kv with ⟨k1, v1⟩
    by_cases hk : k1 = k
    · simp [tableLookup, hk] at h
      subst hk
      subst h
      exact List.mem_cons_self _ _
    · simp [tableLookup, hk] at h
      exact List.mem_cons_of_mem _ (ih h)

theorem resolveParts_mem (t : PyTable) (l : List Nat) (p : PyStr)
    (hp : p ∈ resolveParts t l) : ∃ k, (k, p) ∈ t := by
  induction l with
  | nil => simp [resolveParts] at hp
  | cons i rest ih =>
    rw [resolveParts] at hp
    cases hl : tableLookup t i with
    | none => rw [hl] at hp; exact ih hp
    | some s =>
      rw [hl] at hp
      rcases List.mem_cons.1 hp with h1 | h1
      · exact ⟨i, tableLookup_mem t i p (h1 ▸ hl)⟩
      · exact ih h1

theorem joinSpace_ne_nil (p : PyStr) (ps : List PyStr) (hp : p ≠ []) :
    joinSpace (p :: ps) ≠ [] := by
  cases ps with
  | nil => simpa [joinSpace] using hp
  | cons q qs => simp [joinSpace]

/-- Every entry carried out of the homophone-word loop was either already
in the accumulator or was built with the group's pinyin string. -/
theorem parseWords_entries (data : List Nat) (py : PyStr) :
    ∀ (n pos : Nat) (es : List DecodedEntry) (ec : Nat) (e : DecodedEntry),
      e ∈ pwEntries (parseWords data py n pos es ec) → e ∈ es ∨ e.pinyin = py := by
  intro n
  induction n with
  | zero =>
    intro pos es ec e he
    simp [parseWords, pwEntries] at he
    exact .inl he
  | succ m ih =>
    intro pos es ec e he
    cases hr1 : readU16 data pos with
    | none => simp [parseWords, hr1, pwEntries] at he; exact .inl he
    | some word_len =>
      cases hr2 : readU16 data (pos + 2 + word_len) with
      | none => simp [parseWords, hr1, hr2, pwEntries] at he; exact .inl he
      | some ext_len =>
        cases hr3 : readU16 data (pos + 2 + word_len + 2) with
        | none => simp [parseWords, hr1, hr2, hr3, pwEntries] at he; exact .inl he
        | some freq =>
          simp only [parseWords, hr1, hr2, hr3, pwEntries_addConsumed] at he
          rcases ih _ _ _ e he with h1 | h2
          · by_cases hcond : 1 ≤ (byte2str ((data.drop (pos + 2)).take word_len)).length ∧
                (byte2str ((data.drop (pos + 2)).take word_len)).length ≤ 8
            · rw [if_pos hcond] at h1
              rcases List.mem_append.1 h1 with h3 | h3
              · exact .inl h3
              · simp at h3
                exact .inr (by rw [h3])
            · rw [if_neg hcond] at h1
              exact .inl h1
          · exact .inr h2

/-- C2 counterexample: the pinyin sub-buffer `[1, 0, 0, 0]` is one
well-formed record with a zero-length text, so the mapping sends index 1
to the empty string.  A word group referencing index 1 then resolves
(`pinyin_parts` is a non-empty list, which is all the code checks) and
joins to the empty pinyin string, and the decoder appends an entry whose
pinyin is empty — contradicting the claimed invariant. -/
theorem claim_C2_counterexample :
    (wordLoop [1, 0, 2, 0, 1, 0, 2, 0, 65, 0, 2, 0, 5, 0]
        (pyParse [1, 0, 0, 0] 0 [] 0).1 0 [] 0 0).1
      = [{ word := [65], pinyin := [], freq := 5 }] := by
  simp [pyParse, readU16, byte2str, tableInsert, wordLoop, parseWords, readIndices,
    resolveParts, tableLookup, joinSpace, addConsumed]

/-- C2 amended: the entry invariant holds under the extra hypothesis that
every syllable string in the pinyin mapping is non-empty (the code only
checks that the list of resolved parts is non-empty, so an index mapped
to the empty string — produced by a zero-length pinyin record — yields an
entry with empty pinyin).  Starting from an accumulator whose entries all
have non-empty pinyin, every entry the Word Table Decoder returns has
non-empty pinyin; groups with no resolved index contribute nothing. -/
theorem claim_C2_amended (data : List Nat) (t : PyTable)
    (ht : ∀ kv ∈ t, kv.2 ≠ ([] : PyStr)) (pos : Nat) (es : List DecodedEntry) (ec fc : Nat)
    (hes : ∀ e ∈ es, e.pinyin ≠ ([] : PyStr)) :
    ∀ e ∈ (wordLoop data t pos es ec fc).1, e.pinyin ≠ ([] : PyStr) := by
  revert hes
  induction pos, es, ec, fc using wordLoop.induct data t with
  | case1 pos es ec fc h hr ih =>
    intro hes e he
    rw [wordLoop] at he
    simp [h, hr] at he
    exact ih hes e he
  | case2 pos es ec fc h sc hr1 hr2 ih =>
    intro hes e he
    rw [wordLoop] at he
    simp [h, hr1, hr2] at he
    exact ih hes e he
  | case3 pos es ec fc h sc hr1 ptl hr2 ci hr3 ih =>
    intro hes e he
    rw [wordLoop] at he
    simp [h, hr1, hr2, hr3] at he
    exact ih hes e he
  | case4 pos es ec fc h sc hr1 ptl hr2 idxs ci hr3 hparts ih =>
    intro hes e he
    rw [wordLoop] at he
    simp [h, hr1, hr2, hr3, hparts] at he
    exact ih hes e he
  | case5 pos es ec fc h sc hr1 ptl hr2 idxs ci hr3 p ps hparts cw es2 ec2 hrec ih =>
    intro hes e he
    rw [wordLoop] at he
    simp [h, hr1, hr2, hr3, hparts, hrec] at he
    have hp : p ≠ ([] : PyStr) := by
      have hmem : p ∈ resolveParts t idxs := by
        rw [hparts]; exact List.mem_cons_self p ps
      rcases resolveParts_mem t idxs p hmem with ⟨k, hk⟩
      exact ht (k, p) hk
    have hes2 : ∀ e2 ∈ es2, e2.pinyin ≠ ([] : PyStr) := by
      intro e2 he2
      have hpw : e2 ∈ pwEntries (parseWords data (joinSpace (p :: ps)) sc (pos + 4 + ci) es ec) := by
        rw [hrec]; exact he2
      rcases parseWords_entries data (joinSpace (p :: ps)) sc (pos + 4 + ci) es ec e2 hpw with
        h1 | h2
      · exact hes e2 h1
      · rw [h2]; exact joinSpace_ne_nil p ps hp
    exact ih hes2 e he
  | case6 pos es ec fc h sc hr1 ptl hr2 idxs ci hr3 p ps hparts cw es2 ec2 hrec ih =>
    intro hes e he
    rw [wordLoop] at he
    simp [h, hr1, hr2, hr3, hparts, hrec] at he
    have hp : p ≠ ([] : PyStr) := by
      have hmem : p ∈ resolveParts t idxs := by
        rw [hparts]; exact List.mem_cons_self p ps
      rcases resolveParts_mem t idxs p hmem with ⟨k, hk⟩
      exact ht (k, p) hk
    have hes2 : ∀ e2 ∈ es2, e2.pinyin ≠ ([] : PyStr) := by
      intro e2 he2
      have hpw : e2 ∈ pwEntries (parseWords data (joinSpace (p :: ps)) sc (pos + 4 + ci) es ec) := by
        rw [hrec]; exact he2
      rcases parseWords_entries data (joinSpace (p :: ps)) sc (pos + 4 + ci) es ec e2 hpw with
        h1 | h2
      · exact hes e2 h1
      · rw [h2]; exact joinSpace_ne_nil p ps hp
    exact ih hes2 e he
  | case7 pos es ec fc h =>
    intro hes e he
    rw [wordLoop] at he
    simp [h] at he
    exact hes e he

theorem claim_C2_witness :
    DecodedEntry.pinyin { word := [65], pinyin := [110, 105], freq := 5 } ≠ ([] : PyStr) :=
  claim_C2_amended [1, 0, 2, 0, 1, 0, 2, 0, 65, 0, 2, 0, 5, 0] [(1, [110, 105])]
    (by decide) 0 [] 0 0 (by simp)
    { word := [65], pinyin := [110, 105], freq := 5 }
    (by simp [wordLoop, parseWords, readIndices, readU16, byte2str, resolveParts,
      tableLookup, joinSpace, addConsumed])

/-- C3: a group whose header and index table read successfully but none
of whose indices resolves against the pinyin mapping emits no word
records and advances the cursor by exactly `same_count * 14` bytes past
the end of the index table (`ci` is the index-table byte count read). -/
theorem claim_C3 (data : List Nat) (t : PyTable) (pos : Nat) (es : List DecodedEntry)
    (ec fc : Nat) (same_count py_table_len ci : Nat) (idxs : List Nat)
    (h : pos < data.length)
    (h1 : readU16 data pos = some same_count)
    (h2 : readU16 data (pos + 2) = some py_table_len)
    (h3 : readIndices data (pos + 4) (py_table_len / 2) = .ok (idxs, ci))
    (h4 : resolveParts t idxs = []) :
    wordLoop data t pos es ec fc =
      wordLoop data t (pos + 4 + ci + same_count * 14) es ec fc := by
  rw [wordLoop]
  simp [h, h1, h2, h3, h4]

theorem claim_C3_witness :
    wordLoop [1, 0, 2, 0, 7, 0] [] 0 [] 0 0 = wordLoop [1, 0, 2, 0, 7, 0] [] 20 [] 0 0 :=
  claim_C3 [1, 0, 2, 0, 7, 0] [] 0 [] 0 0 1 2 2 [7] (by decide) rfl rfl rfl rfl

end Scel

namespace Scel

/-! ### Claims about the Filter/Sort Pipeline -/

theorem mem_insertByFreq (a e : DecodedEntry) (l : List DecodedEntry) :
    a ∈ insertByFreq e l ↔ a = e ∨ a ∈ l := by
  induction l with
  | nil => simp [insertByFreq]
  | cons y ys ih =>
    by_cases hy : y.freq ≤ e.freq
    · simp [insertByFreq, hy]
    · simp [insertByFreq, hy, ih]
      tauto

theorem mem_sortByFreqDesc (a : DecodedEntry) (l : List DecodedEntry) :
    a ∈ sortByFreqDesc l ↔ a ∈ l := by
  induction l with
  | nil => simp [sortByFreqDesc]
  | cons x xs ih => simp [sortByFreqDesc, mem_insertByFreq, ih]

theorem pairwise_insertByFreq (e : DecodedEntry) (l : List DecodedEntry)
    (h : l.Pairwise (fun a b => b.freq ≤ a.freq)) :
    (insertByFreq e l).Pairwise (fun a b => b.freq ≤ a.freq) := by
  induction l with
  | nil => simp [insertByFreq]
  | cons y ys ih =>
    rcases List.pairwise_cons.1 h with ⟨hy, hys⟩
    by_cases hle : y.freq ≤ e.freq
    · rw [insertByFreq, if_pos hle]
      refine List.pairwise_cons.2 ⟨?_, h⟩
      intro b hb
      rcases List.mem_cons.1 hb with h1 | h1
      · rw [h1]; exact hle
      · exact le_trans (hy b h1) hle
    · rw [insertByFreq, if_neg hle]
      refine List.pairwise_cons.2 ⟨?_, ih hys⟩
      intro b hb
      rcases (mem_insertByFreq b e ys).1 hb with h1 | h1
      · rw [h1]; omega
      · exact hy b h1

theorem pairwise_sortByFreqDesc (l : List DecodedEntry) :
    (sortByFreqDesc l).Pairwise (fun a b => b.freq ≤ a.freq) := by
  induction l with
  | nil => simp [sortByFreqDesc]
  | cons x xs ih => exact pairwise_insertByFreq x (sortByFreqDesc xs) ih

/-- C4: every entry in the pipeline output passes the frequency and
length thresholds, and the output is adjacent-pairwise non-increasing in
frequency. -/
theorem claim_C4 (es : List DecodedEntry) (min_freq min_length max_length : Int) :
    (∀ e ∈ generate_rime_yaml es min_freq min_length max_length,
      min_freq ≤ (e.freq : Int) ∧ min_length ≤ (e.word.length : Int) ∧
        (e.word.length : Int) ≤ max_length) ∧
    List.Chain' (fun a b => b.freq ≤ a.freq)
      (generate_rime_yaml es min_freq min_length max_length) := by
  constructor
  · intro e he
    have hm : e ∈ filterEntries es min_freq min_length max_length := by
      rw [generate_rime_yaml] at he
      exact (mem_sortByFreqDesc e _).1 he
    have := List.of_mem_filter hm
    simpa using this
  · exact (pairwise_sortByFreqDesc _).chain'

theorem claim_C4_witness :
    (1 : Int) ≤ (((5 : Nat) : Int)) ∧
      (1 : Int) ≤ ((([65] : List Nat).length : Int)) ∧
      ((([65] : List Nat).length : Int)) ≤ 8 :=
  (claim_C4 [{ word := [65], pinyin := [66], freq := 5 }] 1 1 8).1
    { word := [65], pinyin := [66], freq := 5 } (by decide)

theorem filter_freq_insertByFreq (f : Nat) (e : DecodedEntry) (l : List DecodedEntry) :
    (insertByFreq e l).filter (fun a => a.freq == f) =
      if e.freq = f then e :: l.filter (fun a => a.freq == f)
      else l.filter (fun a => a.freq == f) := by
  induction l with
  | nil =>
    rw [insertByFreq]
    by_cases hef : e.freq = f
    · simp [List.filter, hef]
    · have hbe : (e.freq == f) = false := by simp [hef]
      simp [List.filter, hbe, hef]
  | cons y ys ih =>
    by_cases hy : y.freq ≤ e.freq
    · rw [insertByFreq, if_pos hy]
      by_cases hef : e.freq = f
      · simp [List.filter, hef]
      · have hbe : (e.freq == f) = false := by simp [hef]
        simp [List.filter, hbe, hef]
    · rw [insertByFreq, if_neg hy]
      by_cases hyf : y.freq = f
      · have hef : ¬ e.freq = f := by omega
        have hbe : (e.freq == f) = false := by simp [hef]
        simp [List.filter, hyf, hbe, hef, ih]
      · have hby : (y.freq == f) = false := by simp [hyf]
        by_cases hef : e.freq = f
        · simp [List.filter, hby, hef, ih]
        · have hbe : (e.freq == f) = false := by simp [hef]
          simp [List.filter, hby, hbe, hef, ih]

theorem filter_freq_sortByFreqDesc (f : Nat) (l : List DecodedEntry) :
    (sortByFreqDesc l).filter (fun a => a.freq == f) =
      l.filter (fun a => a.freq == f) := by
  induction l with
  | nil => simp [sortByFreqDesc]
  | cons x xs ih =>
    rw [sortByFreqDesc, filter_freq_insertByFreq]
    by_cases hxf : x.freq = f
    · simp [List.filter, hxf, ih]
    · have hbx : (x.freq == f) = false := by simp [hxf]
      simp [List.filter, hbx, hxf, ih]

/-- C5: the sort is stable — for every frequency value, the subsequence
of output entries with that frequency equals the subsequence of the
filtered-but-unsorted entries with that frequency, so equal-frequency
survivors keep their relative order. -/
theorem claim_C5 (es : List DecodedEntry) (min_freq min_length max_length : Int) (f : Nat) :
    (generate_rime_yaml es min_freq min_length max_length).filter (fun a => a.freq == f) =
      (filterEntries es min_freq min_length max_length).filter (fun a => a.freq == f) := by
  rw [generate_rime_yaml]
  exact filter_freq_sortByFreqDesc f _

end Scel
